import Mathlib

/-!
Verification of the perf-test benchmark suite (`main.py`).

The Python source is shallowly embedded: pure functions become Lean
functions on `ℤ`/`ℕ`/`ℚ`; wall-clock time (`time.time()`) is modelled by an
explicit trace of clock readings consumed in call order; filesystem and
process effects are modelled by explicit outcome environments.  Python
floats are modelled by `ℚ`.
-/

namespace PerfTest

/-- Embedding of `_is_prime` (main.py lines 16-23): trial division over
`range(2, int(math.sqrt(n)) + 1)`.  `int(math.sqrt(n))` is modelled as the
exact integer square root `Nat.sqrt`; Python ints below 2 (including all
negatives) return `False` at the first guard, so for `n ≥ 2` the value
`n.toNat` is `n` itself. -/
def «_is_prime» (n : ℤ) : Bool :=
  if n < 2 then false
  else (List.range' 2 (Nat.sqrt n.toNat - 1)).all (fun i => n.toNat % i != 0)

/-- Embedding of `_fibonacci` (main.py lines 26-30).  Its value is computed
and discarded by `_cpu_burn_worker` (line 52) purely to burn CPU; it never
influences any returned state. -/
def «_fibonacci» : ℕ → ℕ
  | 0 => 0
  | 1 => 1
  | n + 2 => «_fibonacci» (n + 1) + «_fibonacci» n

/-- Python `int(q)` on a float/rational: truncation toward zero. -/
def pyInt (q : ℚ) : ℤ := if q < 0 then -⌊-q⌋ else ⌊q⌋

/-- CPU score expression shared by `cpu_single_core_test` (main.py line 108)
and `cpu_multi_core_test` (line 166):
`int(total_ops / cpu_time) if cpu_time > 0 else 0`. -/
def cpu_score (totalOps : ℕ) (elapsed : ℚ) : ℤ :=
  if 0 < elapsed then pyInt ((totalOps : ℚ) / elapsed) else 0

/-- Embedding of `calculate_drive_score` (main.py lines 273-286):
`int((write_speed + read_speed) / 2 + (read_iops + write_iops) / 100)`. -/
def calculate_drive_score (writeSpeed readSpeed readIops writeIops : ℚ) : ℤ :=
  pyInt ((writeSpeed + readSpeed) / 2 + (readIops + writeIops) / 100)

/-- Python division `a / b` on numbers: raises `ZeroDivisionError` when
`b = 0` (modelled as `none`), otherwise the exact quotient. -/
def pyDiv (a b : ℚ) : Option ℚ := if b = 0 then none else some (a / b)

/-- `write_speed = file_size_mb / write_time` (main.py line 198) — an
unguarded division. -/
def write_speed (fileSizeMB : ℕ) (writeTime : ℚ) : Option ℚ :=
  pyDiv (fileSizeMB : ℚ) writeTime

/-- `read_speed = file_size_mb / read_time` (main.py line 206) — an
unguarded division. -/
def read_speed (fileSizeMB : ℕ) (readTime : ℚ) : Option ℚ :=
  pyDiv (fileSizeMB : ℚ) readTime

/-- `read_iops = num_operations / random_read_time` (main.py line 256) — an
unguarded division. -/
def read_iops (numOps : ℕ) (readTime : ℚ) : Option ℚ :=
  pyDiv (numOps : ℚ) readTime

/-- `write_iops = num_operations / random_write_time` (main.py line 257) —
an unguarded division. -/
def write_iops (numOps : ℕ) (writeTime : ℚ) : Option ℚ :=
  pyDiv (numOps : ℚ) writeTime

/-- Mutable state of the `while` loop in `_cpu_burn_worker`
(main.py lines 38-61). -/
structure BurnState where
  prime_count : ℕ
  operations : ℕ
  current : ℤ
  ops_slices : List ℕ
  slice_idx : ℕ
  next_cutoff : ℚ
deriving DecidableEq

/-- Result dict of `_cpu_burn_worker` (main.py line 64). -/
structure BurnResult where
  operations : ℕ
  primes_found : ℕ
  duration : ℚ
  ops_slices : List ℕ
deriving DecidableEq

/-- `max(1, int(num_slices))` (main.py line 43): the length of the
`ops_slices` list. -/
def numSlicesLen (numSlices : ℤ) : ℕ := (max 1 numSlices).toNat

/-- `slice_len = duration / len(ops_slices) if duration > 0 else 1.0`
(main.py line 44). -/
def sliceLenOf (duration : ℚ) (numSlices : ℤ) : ℚ :=
  if 0 < duration then duration / (numSlicesLen numSlices : ℚ) else 1

/-- The inner `while` of main.py lines 59-61: advance `slice_idx` and
`next_cutoff` while `elapsed >= next_cutoff and slice_idx < len - 1`.
The loop body runs at most `len` times (each step needs
`slice_idx < len - 1` and increments `slice_idx`), so fuel `len` makes this
total recursion compute exactly the Python loop's final state. -/
def advanceSlice (sliceLen elapsed : ℚ) (len : ℕ) : ℕ → ℕ × ℚ → ℕ × ℚ
  | 0, s => s
  | fuel + 1, (idx, cutoff) =>
    if elapsed ≥ cutoff ∧ idx < len - 1 then
      advanceSlice sliceLen elapsed len fuel (idx + 1, cutoff + sliceLen)
    else (idx, cutoff)

/-- One iteration of the `while` body of `_cpu_burn_worker`
(main.py lines 49-61), given `elapsed`, the value of
`time.time() - start_time` read at line 58 of this iteration.  The
`math.sin/cos/sqrt` expression (line 51) and `_fibonacci(20)` (line 52)
are computed and discarded by the source and so do not appear in the state
transition. -/
def burnStep (sliceLen elapsed : ℚ) (s : BurnState) : BurnState :=
  let pc := if «_is_prime» s.current then s.prime_count + 1 else s.prime_count
  if h : s.slice_idx < s.ops_slices.length then
    let slices := s.ops_slices.set s.slice_idx (s.ops_slices.get ⟨s.slice_idx, h⟩ + 1)
    let ic := advanceSlice sliceLen elapsed slices.length slices.length
      (s.slice_idx, s.next_cutoff)
    { prime_count := pc, operations := s.operations + 1, current := s.current + 1,
      ops_slices := slices, slice_idx := ic.1, next_cutoff := ic.2 }
  else
    { prime_count := pc, operations := s.operations + 1, current := s.current + 1,
      ops_slices := s.ops_slices, slice_idx := s.slice_idx, next_cutoff := s.next_cutoff }

/-- The `while time.time() - start_time < duration` loop (main.py line 48).
Each executed iteration consumes one pair of clock readings from `trace`:
the loop-condition reading (line 48) and the in-body elapsed reading
(line 58).  An empty remaining trace models a clock that has run past the
budget, so the loop stops. -/
def burnLoop (duration start sliceLen : ℚ) :
    List (ℚ × ℚ) → BurnState → BurnState
  | [], s => s
  | (tc, ti) :: rest, s =>
    if tc - start < duration then
      burnLoop duration start sliceLen rest (burnStep sliceLen (ti - start) s)
    else s

/-- Embedding of `_cpu_burn_worker` (main.py lines 33-64).  `start` is the
`time.time()` reading of line 38, `trace` the pairs of readings consumed
by the loop, and `tEnd` the final reading of line 63. -/
def «_cpu_burn_worker» (duration : ℚ) (numSlices : ℤ) (start : ℚ)
    (trace : List (ℚ × ℚ)) (tEnd : ℚ) : BurnResult :=
  let len := numSlicesLen numSlices
  let sliceLen := sliceLenOf duration numSlices
  let s := burnLoop duration start sliceLen trace
    { prime_count := 0, operations := 0, current := 2,
      ops_slices := List.replicate len 0, slice_idx := 0, next_cutoff := sliceLen }
  { operations := s.operations, primes_found := s.prime_count,
    duration := tEnd - start, ops_slices := s.ops_slices }

/-- A clock trace is chronological: successive `time.time()` readings never
decrease.  `prev` is the most recent earlier reading; within a pair the
condition reading precedes the in-body reading; `tEnd` comes last. -/
def chronB (prev : ℚ) (trace : List (ℚ × ℚ)) (tEnd : ℚ) : Bool :=
  match trace with
  | [] => decide (prev ≤ tEnd)
  | (tc, ti) :: rest => decide (prev ≤ tc) && decide (tc ≤ ti) && chronB ti rest tEnd

/-- `slice_ops = sum(r["operations"] for r in results)`
(main.py line 150): Python `sum` is a left fold from 0. -/
def slice_ops (results : List BurnResult) : ℕ :=
  results.foldl (fun a r => a + r.operations) 0

/-- `slice_primes = sum(r["primes_found"] for r in results)`
(main.py line 151). -/
def slice_primes (results : List BurnResult) : ℕ :=
  results.foldl (fun a r => a + r.primes_found) 0

/-- `slice_time = max(r["duration"] for r in results) if results else
slice_dur` (main.py line 152): Python `max` over a nonempty sequence is a
left fold of binary max from the first element. -/
def slice_time (results : List BurnResult) (sliceDur : ℚ) : ℚ :=
  match results with
  | [] => sliceDur
  | r :: rs => rs.foldl (fun a x => max a x.duration) r.duration

/-- Increment the counter at index `i` (out-of-range `i` leaves the list
unchanged, matching `List.set`). -/
def incAt (l : List ℕ) (i : ℕ) : List ℕ := l.set i (l.getD i 0 + 1)

/-- The sub-interval index the spec's formula assigns to an elapsed time:
`floor(elapsed / slice_len)` clamped to the last index `k - 1`. -/
def natBucket (sliceLen : ℚ) (k : ℕ) (e : ℚ) : ℕ :=
  min (⌊e / sliceLen⌋).toNat (k - 1)

/-- Slice counters predicted by bucketing each elapsed time of `es` with
`natBucket`, starting from `k` zeroed counters. -/
def bucketCounts (sliceLen : ℚ) (k : ℕ) (es : List ℚ) : List ℕ :=
  es.foldl (fun acc e => incAt acc (natBucket sliceLen k e)) (List.replicate k 0)

/-- `bucketCounts` generalized to an arbitrary starting accumulator. -/
def bucketFold (sliceLen : ℚ) (k : ℕ) (acc : List ℕ) (es : List ℚ) : List ℕ :=
  es.foldl (fun acc e => incAt acc (natBucket sliceLen k e)) acc

/-- The in-body elapsed readings (`time.time() - start_time`, main.py line
58) of exactly the iterations the `while` loop of `_cpu_burn_worker`
executes on a given trace. -/
def execElapsed (duration start : ℚ) : List (ℚ × ℚ) → List ℚ
  | [] => []
  | (tc, ti) :: rest =>
    if tc - start < duration then (ti - start) :: execElapsed duration start rest
    else []

/-- Shift an elapsed-time list one iteration back: iteration `i` is paired
with the elapsed reading of iteration `i - 1`, the first iteration with 0. -/
def shiftElapsed (es : List ℚ) : List ℚ := (0 :: es).dropLast

/-- Environment for one `drive_sequential_test` run (main.py lines
185-220): whether the 1 MB-block write loop and the read-back loop complete
without a filesystem error, and the two phase timings. -/
structure SeqIOEnv where
  writeOk : Bool
  readOk : Bool
  writeTime : ℚ
  readTime : ℚ
deriving DecidableEq

/-- The `results['sequential']` record (main.py lines 211-217). -/
structure SeqSummary where
  write_time : ℚ
  read_time : ℚ
  write_speed_mb_s : ℚ
  read_speed_mb_s : ℚ
  file_size_mb : ℕ
deriving DecidableEq

/-- Embedding of `drive_sequential_test` (main.py lines 185-220).  Returns
the summary (`none` when an exception propagates) and whether the
temporary test file was removed before returning.  Control flow of the
source: write phase (lines 193-197), the division at line 198 (raises on a
zero write time), read phase (lines 201-205), the division at line 206,
and only then `os.remove` (line 209) — there is no `try/finally`, so every
exception skips the removal. -/
def drive_sequential_test (env : SeqIOEnv) (fileSizeMB : ℕ) :
    Option SeqSummary × Bool :=
  if !env.writeOk then (none, false)
  else if env.writeTime = 0 then (none, false)
  else if !env.readOk then (none, false)
  else if env.readTime = 0 then (none, false)
  else
    (some { write_time := env.writeTime, read_time := env.readTime,
            write_speed_mb_s := (fileSizeMB : ℚ) / env.writeTime,
            read_speed_mb_s := (fileSizeMB : ℚ) / env.readTime,
            file_size_mb := fileSizeMB }, true)

/-- Environment for one `drive_random_test` run (main.py lines 222-268):
whether creating the 50 MB file, the random-read phase and the random-write
phase complete, and the two phase timings. -/
structure RandIOEnv where
  createOk : Bool
  readOk : Bool
  writeOk : Bool
  readTime : ℚ
  writeTime : ℚ
deriving DecidableEq

/-- The `results['random']` record (main.py lines 262-268). -/
structure RandSummary where
  read_time : ℚ
  write_time : ℚ
  read_iops : ℚ
  write_iops : ℚ
  operations : ℕ
deriving DecidableEq

/-- Embedding of `drive_random_test` (main.py lines 222-268).  Control
flow: create the 50 MB file (lines 231-233), random-read phase (lines
236-243), random-write phase (lines 246-253), the IOPS divisions (lines
256-257, raising on a zero phase time), then `os.remove` (line 260) — again
no `try/finally`, so every exception skips the removal. -/
def drive_random_test (env : RandIOEnv) (numOps : ℕ) :
    Option RandSummary × Bool :=
  if !env.createOk then (none, false)
  else if !env.readOk then (none, false)
  else if !env.writeOk then (none, false)
  else if env.readTime = 0 then (none, false)
  else if env.writeTime = 0 then (none, false)
  else
    (some { read_time := env.readTime, write_time := env.writeTime,
            read_iops := (numOps : ℚ) / env.readTime,
            write_iops := (numOps : ℚ) / env.writeTime,
            operations := numOps }, true)

/-- Where, if anywhere, a workload raises during `run_all_tests`
(main.py lines 288-355). -/
inductive FailAt
  | noFail
  | cpu
  | seqIO
  | randIO
deriving DecidableEq

/-- Observable outcome of one `run_all_tests` call followed by the return
from `main` (main.py lines 288-367): how many times each workload was
started, whether the `except Exception` handler reported the error (line
353), whether the `finally` cleanup ran (line 355), and the process exit
status (`main` returns normally in every case, so Python exits 0). -/
structure SuiteOutcome where
  cpuAttempts : ℕ
  seqAttempts : ℕ
  randAttempts : ℕ
  errorReported : Bool
  cleanupRan : Bool
  exitCode : ℕ
deriving DecidableEq

/-- Embedding of `run_all_tests` (main.py lines 288-355) plus the implicit
exit status of `main` (lines 357-367).  The `try` body runs the CPU test,
then (unless `skip_drive`) the sequential and random drive tests; the first
raising workload aborts the rest of the `try` body; `except Exception`
prints the cause; `finally` always runs `cleanup()`; nothing re-raises or
calls `sys.exit`, so the process exit code is 0 on every path. -/
def run_all_tests (failAt : FailAt) (skipDrive : Bool) : SuiteOutcome :=
  if failAt = FailAt.cpu then
    { cpuAttempts := 1, seqAttempts := 0, randAttempts := 0,
      errorReported := true, cleanupRan := true, exitCode := 0 }
  else if skipDrive then
    { cpuAttempts := 1, seqAttempts := 0, randAttempts := 0,
      errorReported := false, cleanupRan := true, exitCode := 0 }
  else if failAt = FailAt.seqIO then
    { cpuAttempts := 1, seqAttempts := 1, randAttempts := 0,
      errorReported := true, cleanupRan := true, exitCode := 0 }
  else if failAt = FailAt.randIO then
    { cpuAttempts := 1, seqAttempts := 1, randAttempts := 1,
      errorReported := true, cleanupRan := true, exitCode := 0 }
  else
    { cpuAttempts := 1, seqAttempts := 1, randAttempts := 1,
      errorReported := false, cleanupRan := true, exitCode := 0 }

/-! ## Theorems -/

/-- Trial division over `[2, Nat.sqrt m]` decides primality for `m ≥ 2`. -/
theorem trial_division_iff_prime (m : ℕ) (hm : 2 ≤ m) :
    ((List.range' 2 (Nat.sqrt m - 1)).all (fun i => m % i != 0) = true) ↔
      Nat.Prime m := by
  have hsq : 1 ≤ Nat.sqrt m := Nat.sqrt_pos.2 (by omega)
  rw [List.all_eq_true]
  constructor
  · intro h
    rw [Nat.prime_def_le_sqrt]
    refine ⟨hm, fun j hj2 hjsq hdvd => ?_⟩
    have hjmem : j ∈ List.range' 2 (Nat.sqrt m - 1) := by
      rw [List.mem_range'_1]
      omega
    have := h j hjmem
    simp only [bne_iff_ne, ne_eq] at this
    exact this (Nat.mod_eq_zero_of_dvd hdvd)
  · intro hp i hi
    rw [List.mem_range'_1] at hi
    simp only [bne_iff_ne, ne_eq]
    intro hmod
    have hdvd : i ∣ m := Nat.dvd_of_mod_eq_zero hmod
    exact (Nat.prime_def_le_sqrt.1 hp).2 i hi.1 (by omega) hdvd

/-- C1: for every integer `n`, `_is_prime n` is `true` exactly when `n ≥ 2`
and `n` is prime (with `Nat.Prime` as the trusted reference definition),
and every `n < 2` — negatives included — yields `false`. -/
theorem is_prime_correct :
    (∀ n : ℤ, «_is_prime» n = true ↔ (2 ≤ n ∧ Nat.Prime n.toNat)) ∧
    (∀ n : ℤ, n < 2 → «_is_prime» n = false) := by
  have key : ∀ n : ℤ, «_is_prime» n = true ↔ (2 ≤ n ∧ Nat.Prime n.toNat) := by
    intro n
    unfold «_is_prime»
    by_cases h : n < 2
    · simp only [if_pos h, Bool.false_eq_true, false_iff, not_and]
      intro h2
      omega
    · rw [if_neg h]
      have h2 : 2 ≤ n := le_of_not_lt h
      have hm : 2 ≤ n.toNat := by omega
      rw [trial_division_iff_prime n.toNat hm]
      exact (and_iff_right h2).symm
  refine ⟨key, fun n hn => ?_⟩
  have := key n
  rcases hb : «_is_prime» n with _ | _
  · rfl
  · exact absurd ((this.1 hb).1) (by omega)

/-- Witness for C1 at concrete inputs. -/
theorem is_prime_correct_witness :
    («_is_prime» 97 = true ↔ (2 ≤ (97 : ℤ) ∧ Nat.Prime (97 : ℤ).toNat)) ∧
    «_is_prime» (-5) = false :=
  ⟨is_prime_correct.1 97, is_prime_correct.2 (-5) (by decide)⟩

/-- A chronological trace ends no earlier than it starts. -/
theorem chronB_le (trace : List (ℚ × ℚ)) :
    ∀ prev tEnd : ℚ, chronB prev trace tEnd = true → prev ≤ tEnd := by
  induction trace with
  | nil =>
    intro prev tEnd h
    simpa [chronB] using h
  | cons p rest ih =>
    intro prev tEnd h
    obtain ⟨tc, ti⟩ := p
    simp only [chronB, Bool.and_eq_true, decide_eq_true_eq] at h
    exact le_trans h.1.1 (le_trans h.1.2 (ih ti tEnd h.2))

/-- Every loop-condition reading of a chronological trace is at most the
final reading. -/
theorem chronB_cond_le (trace : List (ℚ × ℚ)) :
    ∀ prev tEnd : ℚ, chronB prev trace tEnd = true →
    ∀ p ∈ trace, p.1 ≤ tEnd := by
  induction trace with
  | nil =>
    intro prev tEnd _ p hp
    exact absurd hp (List.not_mem_nil p)
  | cons q rest ih =>
    intro prev tEnd h p hp
    obtain ⟨tc, ti⟩ := q
    simp only [chronB, Bool.and_eq_true, decide_eq_true_eq] at h
    rcases List.mem_cons.1 hp with heq | hmem
    · subst heq
      exact le_trans h.1.2 (chronB_le rest ti tEnd h.2)
    · exact ih ti tEnd h.2 p hmem

/-- `advanceSlice` never moves the slice index past the last slot. -/
theorem advanceSlice_idx_le (sl e : ℚ) (len : ℕ) :
    ∀ (fuel idx : ℕ) (c : ℚ), idx ≤ len - 1 →
    (advanceSlice sl e len fuel (idx, c)).1 ≤ len - 1 := by
  intro fuel
  induction fuel with
  | zero =>
    intro idx c h
    exact h
  | succ fuel ih =>
    intro idx c h
    rw [advanceSlice]
    by_cases hc : e ≥ c ∧ idx < len - 1
    · rw [if_pos hc]
      exact ih (idx + 1) (c + sl) (by omega)
    · rw [if_neg hc]
      exact h

/-- Setting a counter to its successor raises the list sum by one. -/
theorem sum_set_succ :
    ∀ (l : List ℕ) (i : ℕ) (h : i < l.length),
    (l.set i (l.get ⟨i, h⟩ + 1)).sum = l.sum + 1 := by
  intro l
  induction l with
  | nil =>
    intro i h
    exact absurd h (by simp)
  | cons x xs ih =>
    intro i h
    cases i with
    | zero =>
      simp [List.sum_cons]
      omega
    | succ j =>
      have hj : j < xs.length := by simpa using h
      simp only [List.set, List.get, List.sum_cons, ih j hj]
      omega

/-- `burnStep` preserves the number of slices. -/
theorem burnStep_length (sl e : ℚ) (s : BurnState) :
    (burnStep sl e s).ops_slices.length = s.ops_slices.length := by
  unfold burnStep
  by_cases h : s.slice_idx < s.ops_slices.length
  · rw [dif_pos h]
    simp
  · rw [dif_neg h]

/-- `burnStep` keeps the invariant: the slice index stays in range and the
slice counters sum to the operation counter. -/
theorem burnStep_inv (sl e : ℚ) (s : BurnState)
    (hidx : s.slice_idx < s.ops_slices.length)
    (hsum : s.ops_slices.sum = s.operations) :
    (burnStep sl e s).slice_idx < (burnStep sl e s).ops_slices.length ∧
    (burnStep sl e s).ops_slices.sum = (burnStep sl e s).operations := by
  unfold burnStep
  rw [dif_pos hidx]
  simp only
  constructor
  · have hlen : (s.ops_slices.set s.slice_idx
        (s.ops_slices.get ⟨s.slice_idx, hidx⟩ + 1)).length = s.ops_slices.length := by
      simp
    have hle := advanceSlice_idx_le sl e
      (s.ops_slices.set s.slice_idx (s.ops_slices.get ⟨s.slice_idx, hidx⟩ + 1)).length
      (s.ops_slices.set s.slice_idx (s.ops_slices.get ⟨s.slice_idx, hidx⟩ + 1)).length
      s.slice_idx s.next_cutoff (by rw [hlen]; omega)
    rw [hlen] at hle ⊢
    omega
  · rw [sum_set_succ s.ops_slices s.slice_idx hidx, hsum]

/-- `burnLoop` preserves the invariant and the slice count. -/
theorem burnLoop_inv (d start sl : ℚ) (trace : List (ℚ × ℚ)) :
    ∀ s : BurnState, s.slice_idx < s.ops_slices.length →
    s.ops_slices.sum = s.operations →
    (burnLoop d start sl trace s).slice_idx
        < (burnLoop d start sl trace s).ops_slices.length ∧
    (burnLoop d start sl trace s).ops_slices.sum
        = (burnLoop d start sl trace s).operations ∧
    (burnLoop d start sl trace s).ops_slices.length = s.ops_slices.length := by
  induction trace with
  | nil =>
    intro s hidx hsum
    exact ⟨hidx, hsum, rfl⟩
  | cons p rest ih =>
    intro s hidx hsum
    obtain ⟨tc, ti⟩ := p
    rw [burnLoop]
    by_cases hc : tc - start < d
    · rw [if_pos hc]
      have hstep := burnStep_inv sl (ti - start) s hidx hsum
      have := ih (burnStep sl (ti - start) s) hstep.1 hstep.2
      exact ⟨this.1, this.2.1, this.2.2.trans (burnStep_length sl (ti - start) s)⟩
    · rw [if_neg hc]
      exact ⟨hidx, hsum, rfl⟩

/-- C2: a time-boxed CPU run whose clock trace is chronological and whose
loop actually observes the budget expiring returns an elapsed duration of
at least `d`, and its slice-count list has exactly `k` entries summing to
the operation count. -/
theorem burn_worker_timebox (d : ℚ) (k : ℤ) (start : ℚ)
    (trace : List (ℚ × ℚ)) (tEnd : ℚ)
    (hd : 0 < d) (hk : 1 ≤ k)
    (hchron : chronB start trace tEnd = true)
    (hexit : ∃ p ∈ trace, d ≤ p.1 - start) :
    d ≤ («_cpu_burn_worker» d k start trace tEnd).duration ∧
    («_cpu_burn_worker» d k start trace tEnd).ops_slices.length = k.toNat ∧
    («_cpu_burn_worker» d k start trace tEnd).ops_slices.sum
      = («_cpu_burn_worker» d k start trace tEnd).operations := by
  obtain ⟨p, hp, hdp⟩ := hexit
  have hcond := chronB_cond_le trace start tEnd hchron p hp
  have hinv := burnLoop_inv d start (sliceLenOf d k) trace
    { prime_count := 0, operations := 0, current := 2,
      ops_slices := List.replicate (numSlicesLen k) 0,
      slice_idx := 0, next_cutoff := sliceLenOf d k }
    (by simp [numSlicesLen])
    (by simp)
  refine ⟨?_, ?_, ?_⟩
  · show d ≤ tEnd - start
    linarith
  · show (burnLoop d start (sliceLenOf d k) trace _).ops_slices.length = k.toNat
    rw [hinv.2.2]
    simp only [List.length_replicate, numSlicesLen]
    omega
  · exact hinv.2.1

/-- Witness for C2 at a concrete trace: budget 1 s, 2 slices, readings
0, 0, ½, 2, 2 and final reading 3. -/
theorem burn_worker_timebox_witness :
    0 < (1 : ℚ) ∧ 1 ≤ (2 : ℤ) ∧
    chronB 0 [(0, 1/2), (2, 2)] 3 = true ∧
    (∃ p ∈ [((0 : ℚ), (1 : ℚ)/2), (2, 2)], (1 : ℚ) ≤ p.1 - 0) ∧
    (1 : ℚ) ≤ («_cpu_burn_worker» 1 2 0 [(0, 1/2), (2, 2)] 3).duration ∧
    («_cpu_burn_worker» 1 2 0 [(0, 1/2), (2, 2)] 3).ops_slices.length
      = (2 : ℤ).toNat ∧
    («_cpu_burn_worker» 1 2 0 [(0, 1/2), (2, 2)] 3).ops_slices.sum
      = («_cpu_burn_worker» 1 2 0 [(0, 1/2), (2, 2)] 3).operations :=
  ⟨by norm_num, by norm_num, by with_unfolding_all rfl,
    ⟨(2, 2), by norm_num, by norm_num⟩,
    burn_worker_timebox 1 2 0 [(0, 1/2), (2, 2)] 3 (by norm_num) (by norm_num)
      (by with_unfolding_all rfl) ⟨(2, 2), by norm_num, by norm_num⟩⟩

/-- C10: with a nonpositive budget and a chronological clock the `while`
condition `time.time() - start_time < duration` is already false at the
first check, so the worker performs no iterations: zero operations, zero
primes, and every slice counter still zero. -/
theorem burn_worker_nonpositive_duration (d : ℚ) (k : ℤ) (start : ℚ)
    (trace : List (ℚ × ℚ)) (tEnd : ℚ)
    (hd : d ≤ 0) (hchron : chronB start trace tEnd = true) :
    («_cpu_burn_worker» d k start trace tEnd).operations = 0 ∧
    («_cpu_burn_worker» d k start trace tEnd).primes_found = 0 ∧
    («_cpu_burn_worker» d k start trace tEnd).ops_slices
      = List.replicate (numSlicesLen k) 0 := by
  have hloop : ∀ s : BurnState, burnLoop d start (sliceLenOf d k) trace s = s := by
    intro s
    cases trace with
    | nil => rfl
    | cons p rest =>
      obtain ⟨tc, ti⟩ := p
      simp only [chronB, Bool.and_eq_true, decide_eq_true_eq] at hchron
      have : ¬ (tc - start < d) := by linarith [hchron.1.1]
      simp [burnLoop, this]
  unfold «_cpu_burn_worker»
  simp [hloop]

/-- Witness for C10: budget −1, clock readings 5, 5, 6 and final reading 7. -/
theorem burn_worker_nonpositive_duration_witness :
    (-1 : ℚ) ≤ 0 ∧ chronB 5 [(5, 6)] 7 = true ∧
    («_cpu_burn_worker» (-1) 3 5 [(5, 6)] 7).operations = 0 ∧
    («_cpu_burn_worker» (-1) 3 5 [(5, 6)] 7).primes_found = 0 ∧
    («_cpu_burn_worker» (-1) 3 5 [(5, 6)] 7).ops_slices
      = List.replicate (numSlicesLen 3) 0 :=
  ⟨by norm_num, by with_unfolding_all rfl,
    burn_worker_nonpositive_duration (-1) 3 5 [(5, 6)] 7 (by norm_num)
      (by with_unfolding_all rfl)⟩

/-- A left fold adding `f` over a list equals the accumulator plus the sum
of the mapped list. -/
theorem foldl_add_map (f : BurnResult → ℕ) :
    ∀ (l : List BurnResult) (a : ℕ),
    l.foldl (fun a r => a + f r) a = a + (l.map f).sum := by
  intro l
  induction l with
  | nil =>
    intro a
    simp
  | cons x xs ih =>
    intro a
    simp [List.foldl_cons, ih (a + f x)]
    omega

/-- The left max-fold bounds its accumulator. -/
theorem foldl_max_ge_init :
    ∀ (l : List BurnResult) (a : ℚ),
    a ≤ l.foldl (fun a x => max a x.duration) a := by
  intro l
  induction l with
  | nil =>
    intro a
    exact le_refl a
  | cons x xs ih =>
    intro a
    exact le_trans (le_max_left a x.duration) (ih (max a x.duration))

/-- The left max-fold bounds every list element. -/
theorem foldl_max_ge_mem :
    ∀ (l : List BurnResult) (a : ℚ) (r : BurnResult), r ∈ l →
    r.duration ≤ l.foldl (fun a x => max a x.duration) a := by
  intro l
  induction l with
  | nil =>
    intro a r hr
    exact absurd hr (List.not_mem_nil r)
  | cons x xs ih =>
    intro a r hr
    rcases List.mem_cons.1 hr with heq | hmem
    · subst heq
      exact le_trans (le_max_right a r.duration) (foldl_max_ge_init xs _)
    · exact ih (max a x.duration) r hmem

/-- The left max-fold returns its accumulator or some element's duration. -/
theorem foldl_max_attained :
    ∀ (l : List BurnResult) (a : ℚ),
    l.foldl (fun a x => max a x.duration) a = a ∨
    ∃ r ∈ l, l.foldl (fun a x => max a x.duration) a = r.duration := by
  intro l
  induction l with
  | nil =>
    intro a
    exact Or.inl rfl
  | cons x xs ih =>
    intro a
    rcases ih (max a x.duration) with h | ⟨r, hr, hv⟩
    · rw [List.foldl_cons, h]
      rcases max_choice a x.duration with hm | hm
      · exact Or.inl hm
      · exact Or.inr ⟨x, List.mem_cons_self x xs, hm⟩
    · exact Or.inr ⟨r, List.mem_cons_of_mem x hr, hv⟩

/-- C3: per multi-core slice, the coordinator's `slice_ops` and
`slice_primes` are the sums of the workers' operation and prime counts,
and `slice_time` is the maximum of the workers' durations (it bounds every
worker's duration and, for a nonempty worker list, is one of them). -/
theorem multi_core_slice_aggregation (results : List BurnResult) (sliceDur : ℚ) :
    slice_ops results = (results.map (fun r => r.operations)).sum ∧
    slice_primes results = (results.map (fun r => r.primes_found)).sum ∧
    (∀ r ∈ results, r.duration ≤ slice_time results sliceDur) ∧
    (results ≠ [] → ∃ r ∈ results, slice_time results sliceDur = r.duration) := by
  refine ⟨?_, ?_, ?_, ?_⟩
  · rw [slice_ops, foldl_add_map (fun r => r.operations) results 0]
    omega
  · rw [slice_primes, foldl_add_map (fun r => r.primes_found) results 0]
    omega
  · intro r hr
    cases results with
    | nil => exact absurd hr (List.not_mem_nil r)
    | cons x xs =>
      rw [slice_time]
      rcases List.mem_cons.1 hr with heq | hmem
      · subst heq
        exact foldl_max_ge_init xs r.duration
      · exact foldl_max_ge_mem xs x.duration r hmem
  · intro hne
    cases results with
    | nil => exact absurd rfl hne
    | cons x xs =>
      rw [slice_time]
      rcases foldl_max_attained xs x.duration with h | ⟨r, hr, hv⟩
      · exact ⟨x, List.mem_cons_self x xs, h⟩
      · exact ⟨r, List.mem_cons_of_mem x hr, hv⟩

/-- Witness for C3 with two concrete worker results. -/
theorem multi_core_slice_aggregation_witness :
    (∀ r ∈ [BurnResult.mk 4 1 2 [4], BurnResult.mk 6 2 3 [6]],
      r.duration ≤ slice_time [BurnResult.mk 4 1 2 [4], BurnResult.mk 6 2 3 [6]] 1) ∧
    (∃ r ∈ [BurnResult.mk 4 1 2 [4], BurnResult.mk 6 2 3 [6]],
      slice_time [BurnResult.mk 4 1 2 [4], BurnResult.mk 6 2 3 [6]] 1 = r.duration) ∧
    slice_ops [BurnResult.mk 4 1 2 [4], BurnResult.mk 6 2 3 [6]]
      = ([BurnResult.mk 4 1 2 [4], BurnResult.mk 6 2 3 [6]].map
          (fun r => r.operations)).sum :=
  have h := multi_core_slice_aggregation
    [BurnResult.mk 4 1 2 [4], BurnResult.mk 6 2 3 [6]] 1
  ⟨h.2.2.1, h.2.2.2 (by simp), h.1⟩

/-- Counterexample to C4 as stated: with 3 operations in 2 seconds the code
computes `int(3 / 2) = 1`, while `round(3 / 2) = 2`. -/
theorem cpu_score_round_cex : cpu_score 3 2 ≠ round ((3 : ℚ) / 2) := by
  have h1 : cpu_score 3 2 = 1 := by with_unfolding_all rfl
  have h2 : round ((3 : ℚ) / 2) = 2 := by norm_num [round_eq]
  rw [h1, h2]
  decide

/-- C4 (amended): the CPU score is the ratio `total_operations /
elapsed_seconds` truncated toward zero — equivalently its floor, the ratio
being nonnegative — when `elapsed_seconds > 0`, and 0 when
`elapsed_seconds` is zero or negative. -/
theorem cpu_score_floor (t : ℕ) (e : ℚ) :
    (0 < e → cpu_score t e = ⌊(t : ℚ) / e⌋) ∧ (e ≤ 0 → cpu_score t e = 0) := by
  constructor
  · intro he
    have hq : ¬ ((t : ℚ) / e < 0) :=
      not_lt.2 (div_nonneg (by positivity) (le_of_lt he))
    rw [cpu_score, if_pos he, pyInt, if_neg hq]
  · intro he
    rw [cpu_score, if_neg (not_lt.2 he)]

/-- Witness for C4 (amended) at 3 operations in 2 seconds and at a zero
elapsed time. -/
theorem cpu_score_floor_witness :
    (0 < (2 : ℚ) → cpu_score 3 2 = ⌊((3 : ℕ) : ℚ) / 2⌋) ∧
    ((0 : ℚ) ≤ 0 → cpu_score 3 0 = 0) :=
  ⟨(cpu_score_floor 3 2).1, (cpu_score_floor 3 0).2⟩

/-- Counterexample to C5 as stated: with sequential speeds 1 and 2 MB/s and
100 read and write IOPS the composite is 3.5; the code computes
`int(3.5) = 3`, while `round(3.5) = 4`. -/
theorem drive_score_round_cex :
    calculate_drive_score 1 2 100 100
      ≠ round (((1 : ℚ) + 2) / 2 + ((100 : ℚ) + 100) / 100) := by
  have h1 : calculate_drive_score 1 2 100 100 = 3 := by with_unfolding_all rfl
  have h2 : round (((1 : ℚ) + 2) / 2 + ((100 : ℚ) + 100) / 100) = 4 := by
    norm_num [round_eq]
  rw [h1, h2]
  decide

/-- C5 (amended): the drive score is the truncation toward zero of
`(write_speed + read_speed)/2 + (read_iops + write_iops)/100`; for
nonnegative inputs this is the floor of the composite, not its rounding. -/
theorem drive_score_floor (w r ri wi : ℚ)
    (hw : 0 ≤ w) (hr : 0 ≤ r) (hri : 0 ≤ ri) (hwi : 0 ≤ wi) :
    calculate_drive_score w r ri wi = ⌊(w + r) / 2 + (ri + wi) / 100⌋ := by
  have hq : ¬ ((w + r) / 2 + (ri + wi) / 100 < 0) := by
    push_neg
    positivity
  rw [calculate_drive_score, pyInt, if_neg hq]

/-- Witness for C5 (amended) at the concrete summary (1, 2, 100, 100). -/
theorem drive_score_floor_witness :
    calculate_drive_score 1 2 100 100
      = ⌊((1 : ℚ) + 2) / 2 + ((100 : ℚ) + 100) / 100⌋ :=
  drive_score_floor 1 2 100 100 (by norm_num) (by norm_num) (by norm_num)
    (by norm_num)

/-- Counterexample to C6 as stated: the sequential write-throughput
computation is not guarded — at a zero measured write time it raises
`ZeroDivisionError` (modelled `none`) instead of yielding the claimed
zero rate. -/
theorem rate_guard_cex : write_speed 100 0 ≠ some 0 := by
  with_unfolding_all decide

/-- C6 (amended): only the CPU rate computations are guarded and fail
closed (score 0 on nonpositive elapsed time); the four drive rate
computations are unguarded divisions — a zero elapsed time raises
`ZeroDivisionError` and any nonzero (even negative) elapsed time divides
through. -/
theorem rate_guards (t : ℕ) (e : ℚ) (sz n : ℕ) (tq : ℚ) :
    (e ≤ 0 → cpu_score t e = 0) ∧
    write_speed sz 0 = none ∧ read_speed sz 0 = none ∧
    read_iops n 0 = none ∧ write_iops n 0 = none ∧
    (tq ≠ 0 →
      write_speed sz tq = some ((sz : ℚ) / tq) ∧
      read_speed sz tq = some ((sz : ℚ) / tq) ∧
      read_iops n tq = some ((n : ℚ) / tq) ∧
      write_iops n tq = some ((n : ℚ) / tq)) := by
  refine ⟨fun he => by rw [cpu_score, if_neg (not_lt.2 he)], ?_, ?_, ?_, ?_,
    fun htq => ?_⟩
  · rw [write_speed, pyDiv, if_pos rfl]
  · rw [read_speed, pyDiv, if_pos rfl]
  · rw [read_iops, pyDiv, if_pos rfl]
  · rw [write_iops, pyDiv, if_pos rfl]
  · exact ⟨by rw [write_speed, pyDiv, if_neg htq], by rw [read_speed, pyDiv, if_neg htq],
      by rw [read_iops, pyDiv, if_neg htq], by rw [write_iops, pyDiv, if_neg htq]⟩

/-- Witness for C6 (amended) at concrete inputs. -/
theorem rate_guards_witness :
    ((-1 : ℚ) ≤ 0 → cpu_score 7 (-1) = 0) ∧
    ((2 : ℚ) ≠ 0 →
      write_speed 100 2 = some (((100 : ℕ) : ℚ) / 2) ∧
      read_speed 100 2 = some (((100 : ℕ) : ℚ) / 2) ∧
      read_iops 1000 2 = some (((1000 : ℕ) : ℚ) / 2) ∧
      write_iops 1000 2 = some (((1000 : ℕ) : ℚ) / 2)) :=
  ⟨(rate_guards 7 (-1) 100 1000 2).1, (rate_guards 7 (-1) 100 1000 2).2.2.2.2.2⟩

/-- Counterexample to C7 as stated: when the sequential write phase fails
(e.g. filesystem full) the exception propagates past the `os.remove` call,
so the temporary file is not removed before the workload returns. -/
theorem temp_file_removal_cex :
    ¬ ((drive_sequential_test
        { writeOk := false, readOk := true, writeTime := 1, readTime := 1 }
        100).2 = true) := by
  with_unfolding_all decide

/-- C7 (amended): each drive workload removes its temporary test file
before returning exactly on the success path; on every error path the
exception skips the `os.remove` call and the file survives the workload
(it is only deleted later by the suite-level temp-directory cleanup). -/
theorem temp_file_removal (envS : SeqIOEnv) (szMB : ℕ)
    (envR : RandIOEnv) (n : ℕ) :
    ((drive_sequential_test envS szMB).2 = true
      ↔ (drive_sequential_test envS szMB).1.isSome = true) ∧
    ((drive_random_test envR n).2 = true
      ↔ (drive_random_test envR n).1.isSome = true) := by
  constructor
  · rw [drive_sequential_test]
    rcases envS with ⟨wOk, rOk, wT, rT⟩
    cases wOk <;> cases rOk <;> by_cases hw : wT = 0 <;> by_cases hr : rT = 0 <;>
      simp [hw, hr]
  · rw [drive_random_test]
    rcases envR with ⟨cOk, rOk, wOk, rT, wT⟩
    cases cOk <;> cases rOk <;> cases wOk <;> by_cases hw : wT = 0 <;>
      by_cases hr : rT = 0 <;> simp [hw, hr]

/-- Counterexample to C9 as stated: when the CPU workload raises, the suite
does report the cause and run its cleanup finalizer, but `run_all_tests`
swallows the exception and `main` returns normally, so the process exits
with status 0 — not a non-zero-equivalent error status. -/
theorem suite_failure_cex :
    ¬ ((run_all_tests FailAt.cpu false).errorReported = true ∧
       (run_all_tests FailAt.cpu false).cleanupRan = true ∧
       (run_all_tests FailAt.cpu false).exitCode ≠ 0) := by
  decide

/-- C9 (amended): when a workload raises, the suite attempts each workload
at most once (no retries), reports the underlying cause, always runs the
cleanup finalizer, and then completes normally with exit status 0 — the
failure is not converted into a non-zero exit. -/
theorem suite_failure_behavior (f : FailAt) (skip : Bool)
    (hf : f ≠ FailAt.noFail) (htrig : f = FailAt.cpu ∨ skip = false) :
    (run_all_tests f skip).errorReported = true ∧
    (run_all_tests f skip).cleanupRan = true ∧
    (run_all_tests f skip).cpuAttempts ≤ 1 ∧
    (run_all_tests f skip).seqAttempts ≤ 1 ∧
    (run_all_tests f skip).randAttempts ≤ 1 ∧
    (run_all_tests f skip).exitCode = 0 := by
  cases f <;> cases skip <;> simp_all [run_all_tests]

/-- Witness for C9 (amended): a CPU-workload failure with drive tests
enabled. -/
theorem suite_failure_behavior_witness :
    (run_all_tests FailAt.cpu false).errorReported = true ∧
    (run_all_tests FailAt.cpu false).cleanupRan = true ∧
    (run_all_tests FailAt.cpu false).cpuAttempts ≤ 1 ∧
    (run_all_tests FailAt.cpu false).seqAttempts ≤ 1 ∧
    (run_all_tests FailAt.cpu false).randAttempts ≤ 1 ∧
    (run_all_tests FailAt.cpu false).exitCode = 0 :=
  suite_failure_behavior FailAt.cpu false (by decide) (Or.inl rfl)

/-- `getD` with default 0 agrees with `get` inside the list. -/
theorem getD_eq_get_of_lt :
    ∀ (l : List ℕ) (i : ℕ) (h : i < l.length), l.getD i 0 = l.get ⟨i, h⟩ := by
  intro l
  induction l with
  | nil =>
    intro i h
    exact absurd h (by simp)
  | cons x xs ih =>
    intro i h
    cases i with
    | zero => rfl
    | succ j => exact ih j (by simpa using h)

/-- In-range `set`-with-successor is `incAt`. -/
theorem set_get_eq_incAt (l : List ℕ) (i : ℕ) (h : i < l.length) :
    l.set i (l.get ⟨i, h⟩ + 1) = incAt l i := by
  rw [incAt, getD_eq_get_of_lt l i h]

/-- `incAt` preserves length. -/
theorem incAt_length (l : List ℕ) (i : ℕ) : (incAt l i).length = l.length := by
  simp [incAt]

/-- The clamped bucket index never exceeds the last slot. -/
theorem natBucket_le (sl : ℚ) (k : ℕ) (e : ℚ) : natBucket sl k e ≤ k - 1 :=
  min_le_right _ _

/-- The clamped bucket index is monotone in the elapsed time. -/
theorem natBucket_mono (sl : ℚ) (hsl : 0 < sl) (k : ℕ) (e₀ e : ℚ)
    (h : e₀ ≤ e) : natBucket sl k e₀ ≤ natBucket sl k e := by
  have h1 : e₀ / sl ≤ e / sl := (div_le_div_right hsl).2 h
  have h2 : ⌊e₀ / sl⌋ ≤ ⌊e / sl⌋ := Int.floor_mono h1
  exact min_le_min (Int.toNat_le_toNat h2) (le_refl _)

/-- At elapsed time 0 the bucket index is 0. -/
theorem natBucket_zero (sl : ℚ) (k : ℕ) : natBucket sl k 0 = 0 := by
  simp [natBucket]

/-- The catch-up `while` of main.py lines 59-61, started from a consistent
index/cutoff pair below the target, lands exactly on the clamped floor
index `min ⌊e / sl⌋ (n - 1)` with the matching cutoff. -/
theorem advanceSlice_eq (sl : ℚ) (hsl : 0 < sl) (e : ℚ) (n : ℕ) :
    ∀ (fuel idx : ℕ),
    idx ≤ min (⌊e / sl⌋).toNat (n - 1) →
    n - 1 - idx ≤ fuel →
    advanceSlice sl e n fuel (idx, ((idx : ℚ) + 1) * sl)
      = (min (⌊e / sl⌋).toNat (n - 1),
         (((min (⌊e / sl⌋).toNat (n - 1) : ℕ) : ℚ) + 1) * sl) := by
  intro fuel
  induction fuel with
  | zero =>
    intro idx hidx hfuel
    have heq : idx = min (⌊e / sl⌋).toNat (n - 1) := by omega
    rw [advanceSlice, heq]
  | succ fuel ih =>
    intro idx hidx hfuel
    rw [advanceSlice]
    by_cases hc : e ≥ ((idx : ℚ) + 1) * sl ∧ idx < n - 1
    · rw [if_pos hc]
      have h1 : ((idx : ℚ) + 1) ≤ e / sl := (le_div_iff₀ hsl).2 hc.1
      have h2 : (idx : ℤ) + 1 ≤ ⌊e / sl⌋ := by
        rw [Int.le_floor]
        push_cast
        exact h1
      have h4 : idx + 1 ≤ min (⌊e / sl⌋).toNat (n - 1) := by omega
      have hcast : ((idx : ℚ) + 1) * sl + sl = (((idx + 1 : ℕ) : ℚ) + 1) * sl := by
        push_cast
        ring
      rw [hcast]
      exact ih (idx + 1) h4 (by omega)
    · rw [if_neg hc]
      rcases not_and_or.1 hc with hce | hcn
      · have he : e < ((idx : ℚ) + 1) * sl := lt_of_not_ge hce
        have h1 : e / sl < (idx : ℚ) + 1 := (div_lt_iff hsl).2 (by linarith)
        have h2 : ⌊e / sl⌋ < (idx : ℤ) + 1 := by
          rw [Int.floor_lt]
          push_cast
          exact h1
        have heq : idx = min (⌊e / sl⌋).toNat (n - 1) := by omega
        rw [heq]
      · have heq : idx = min (⌊e / sl⌋).toNat (n - 1) := by omega
        rw [heq]

/-- `numSlicesLen` is at least 1 (the `max(1, ...)` of main.py line 43). -/
theorem numSlicesLen_pos (k : ℤ) : 1 ≤ numSlicesLen k := by
  rw [numSlicesLen]
  have h : (1 : ℤ) ≤ max 1 k := le_max_left 1 k
  omega

/-- The per-slice length of main.py line 44 is always positive. -/
theorem sliceLenOf_pos (d : ℚ) (k : ℤ) : 0 < sliceLenOf d k := by
  rw [sliceLenOf]
  by_cases hd : 0 < d
  · rw [if_pos hd]
    apply div_pos hd
    have h := numSlicesLen_pos k
    exact_mod_cast Nat.lt_of_lt_of_le Nat.zero_lt_one h
  · rw [if_neg hd]
    norm_num

/-- One `burnStep` increments the slice counter at the bucket of the
previous iteration's elapsed time, then moves the slice index to the bucket
of this iteration's elapsed time. -/
theorem burnStep_eq (sl : ℚ) (hsl : 0 < sl) (k : ℕ) (hk : 1 ≤ k)
    (e prevE : ℚ) (s : BurnState)
    (hlen : s.ops_slices.length = k)
    (hidx : s.slice_idx = natBucket sl k prevE)
    (hcut : s.next_cutoff = ((s.slice_idx : ℚ) + 1) * sl)
    (hmono : natBucket sl k prevE ≤ natBucket sl k e) :
    (burnStep sl e s).ops_slices = incAt s.ops_slices (natBucket sl k prevE) ∧
    (burnStep sl e s).slice_idx = natBucket sl k e ∧
    (burnStep sl e s).next_cutoff
      = (((burnStep sl e s).slice_idx : ℚ) + 1) * sl ∧
    (burnStep sl e s).ops_slices.length = k := by
  have hble := natBucket_le sl k prevE
  have hidx_lt : s.slice_idx < s.ops_slices.length := by omega
  have hadv := advanceSlice_eq sl hsl e k k s.slice_idx
    (by rw [hidx]; exact hmono) (by omega)
  unfold burnStep
  rw [dif_pos hidx_lt]
  simp only
  have hslen : (s.ops_slices.set s.slice_idx
      (s.ops_slices.get ⟨s.slice_idx, hidx_lt⟩ + 1)).length = k := by
    simp [hlen]
  rw [hslen, hcut, hadv]
  refine ⟨?_, rfl, rfl, rfl⟩
  rw [set_get_eq_incAt s.ops_slices s.slice_idx hidx_lt, hidx]

/-- Unfolding `bucketFold` over a cons. -/
theorem bucketFold_cons (sl : ℚ) (k : ℕ) (acc : List ℕ) (e : ℚ) (es : List ℚ) :
    bucketFold sl k acc (e :: es)
      = bucketFold sl k (incAt acc (natBucket sl k e)) es := rfl

/-- The main loop of `_cpu_burn_worker` attributes the `i`-th executed
iteration to the bucket of the elapsed time recorded at the end of
iteration `i - 1` (with `prevE` standing for that reading before the first
remaining iteration). -/
theorem burnLoop_slices_eq (d start sl : ℚ) (hsl : 0 < sl) (k : ℕ)
    (hk : 1 ≤ k) :
    ∀ (trace : List (ℚ × ℚ)) (prevT tEnd : ℚ) (s : BurnState),
    chronB prevT trace tEnd = true →
    start ≤ prevT →
    s.ops_slices.length = k →
    s.slice_idx = natBucket sl k (prevT - start) →
    s.next_cutoff = ((s.slice_idx : ℚ) + 1) * sl →
    (burnLoop d start sl trace s).ops_slices
      = bucketFold sl k s.ops_slices
          (((prevT - start) :: execElapsed d start trace).dropLast) := by
  intro trace
  induction trace with
  | nil =>
    intro prevT tEnd s _ _ _ _ _
    rw [burnLoop, execElapsed]
    simp [bucketFold]
  | cons p rest ih =>
    intro prevT tEnd s hch hsp hlen hidx hcut
    obtain ⟨tc, ti⟩ := p
    simp only [chronB, Bool.and_eq_true, decide_eq_true_eq] at hch
    rw [burnLoop, execElapsed]
    by_cases hc : tc - start < d
    · rw [if_pos hc, if_pos hc]
      have hmono : natBucket sl k (prevT - start) ≤ natBucket sl k (ti - start) :=
        natBucket_mono sl hsl k _ _
          (sub_le_sub_right (le_trans hch.1.1 hch.1.2) start)
      have hstep := burnStep_eq sl hsl k hk (ti - start) (prevT - start) s
        hlen hidx hcut hmono
      rw [List.dropLast_cons₂, bucketFold_cons, ← hstep.1]
      exact ih ti tEnd (burnStep sl (ti - start) s) hch.2
        (le_trans hsp (le_trans hch.1.1 hch.1.2)) hstep.2.2.2 hstep.2.1
        hstep.2.2.1
    · rw [if_neg hc, if_neg hc]
      simp [bucketFold]

/-- Counterexample to C8 as stated: budget 1 s over 2 slices (slice length
½ s), one executed iteration completing at elapsed time 3/5 s.  The claimed
formula puts that iteration in sub-interval `floor((3/5)/(1/2)) = 1`, but
the code counts it in sub-interval 0, because the counter is incremented
before the slice index is advanced by this iteration's elapsed reading. -/
theorem burn_worker_slice_attribution_cex :
    («_cpu_burn_worker» 1 2 0 [(0, 3/5), (2, 2)] 2).ops_slices
      ≠ bucketCounts (sliceLenOf 1 2) (numSlicesLen 2)
          (execElapsed 1 0 [(0, 3/5), (2, 2)]) := by
  have h1 : («_cpu_burn_worker» 1 2 0 [(0, 3/5), (2, 2)] 2).ops_slices
      = [1, 0] := by
    with_unfolding_all rfl
  have h2 : bucketCounts (sliceLenOf 1 2) (numSlicesLen 2)
      (execElapsed 1 0 [(0, 3/5), (2, 2)]) = [0, 1] := by
    with_unfolding_all rfl
  rw [h1, h2]
  decide

/-- C8 (amended): over any chronological clock trace, each executed
iteration is counted in the sub-interval `floor(elapsed / (duration /
slice_count))` clamped to the last index, where `elapsed` is the wall-clock
time at the completion of the PREVIOUS iteration (0 for the first
iteration) — not at the iteration's own completion, since the code
increments the counter before advancing the slice index. -/
theorem burn_worker_slice_attribution (d : ℚ) (k : ℤ) (start : ℚ)
    (trace : List (ℚ × ℚ)) (tEnd : ℚ)
    (hchron : chronB start trace tEnd = true) :
    («_cpu_burn_worker» d k start trace tEnd).ops_slices
      = bucketCounts (sliceLenOf d k) (numSlicesLen k)
          (shiftElapsed (execElapsed d start trace)) := by
  have hsl := sliceLenOf_pos d k
  unfold «_cpu_burn_worker»
  simp only
  rw [burnLoop_slices_eq d start (sliceLenOf d k) hsl (numSlicesLen k)
    (numSlicesLen_pos k) trace start tEnd _ hchron (le_refl start) (by simp)
    (by simp [natBucket_zero]) (by simp [natBucket_zero])]
  rw [sub_self]
  rfl

/-- Witness for C8 (amended) at the counterexample's trace: the shifted
attribution reproduces the code's `[1, 0]`. -/
theorem burn_worker_slice_attribution_witness :
    chronB 0 [(0, 3/5), (2, 2)] 2 = true ∧
    («_cpu_burn_worker» 1 2 0 [(0, 3/5), (2, 2)] 2).ops_slices
      = bucketCounts (sliceLenOf 1 2) (numSlicesLen 2)
          (shiftElapsed (execElapsed 1 0 [(0, 3/5), (2, 2)])) :=
  ⟨by with_unfolding_all rfl,
    burn_worker_slice_attribution 1 2 0 [(0, 3/5), (2, 2)] 2
      (by with_unfolding_all rfl)⟩

end PerfTest
